import Mathlib

/-!
# Verification of the `money` expression library

A shallow embedding of `src/lib.rs`: monetary values (`Money`), the
expression tree (`Expression`), the error enumeration (`Error`), the
exchange-provider contract (`Exchange`), the currency-aware addition
primitive (`Money.tryAdd` for `Money::try_add`), the reducer
(`Expression.reduce`) and the evaluator (`Expression.evaluate`).

`Money::try_add` re-invokes the provider whenever the converted left
operand's currency still differs from the right operand's currency, and the
reduction loops in `reduce` re-reduce until a `Value` leaf appears; neither
recursion is structurally decreasing, so the embedding threads an explicit
`fuel : Nat` bounding the recursion depth.  `RRes.diverge` marks fuel
exhaustion: a computation of the Rust original fails to terminate exactly
when every fuel bound is exhausted, and it returns a value (or error)
exactly when some fuel bound suffices, all larger bounds then agreeing.
-/

namespace MoneyRs

/-- The `Error` enum of the source: `DifferentCurrencies` and
`NoExchangeRate`. -/
inductive Error where
  | DifferentCurrencies : Error
  | NoExchangeRate : Error
deriving DecidableEq, Repr

/-- `Money<V, C>`: an amount `value : V` paired with a `currency : C`. -/
structure Money (V C : Type) where
  value : V
  currency : C
deriving DecidableEq, Repr

/-- `Expression<V, C>`: the three-variant tree of the source —
`Value` leaves, `Plus` nodes and `Times` nodes. -/
inductive Expression (V C : Type) where
  | Value : Money V C → Expression V C
  | Plus : Expression V C → Expression V C → Expression V C
  | Times : Expression V C → V → Expression V C
deriving DecidableEq, Repr

/-- Outcome of a fuel-bounded computation: a result, a source-level
`Err(Error)`, or exhaustion of the fuel bound (`diverge`). -/
inductive RRes (α : Type) where
  | ok : α → RRes α
  | err : Error → RRes α
  | diverge : RRes α
deriving DecidableEq, Repr

/-- The `MonetaryExchange` trait: one operation turning a `Money` and a
target currency into a converted `Money` or an `Error`. -/
def Exchange (V C : Type) : Type :=
  Money V C → C → Except Error (Money V C)

variable {V C : Type}

/-- The `Mul<V> for Money<V, C>` impl: scale the amount by the scalar,
keeping the currency. -/
def Money.mulScalar [Mul V] (m : Money V C) (k : V) : Money V C :=
  { value := m.value * k, currency := m.currency }

/-- `Money::try_add`: same currency adds the amounts; different currencies
convert the left operand (`self`) into the right operand's currency through
the provider and retry, with no iteration cap — hence the fuel. -/
def Money.tryAdd [Add V] [DecidableEq C] (ex : Exchange V C) :
    Nat → Money V C → Money V C → RRes (Money V C)
  | 0, _, _ => .diverge
  | fuel + 1, a, b =>
    if a.currency = b.currency then
      .ok { value := a.value + b.value, currency := a.currency }
    else
      match ex a b.currency with
      | .error e => .err e
      | .ok a2 => Money.tryAdd ex fuel a2 b

/-- `Expression::reduce`.  The `Plus` arm reduces both children, and its
`loop` checks whether both are `Value` leaves — combining them with
`try_add` if so — and otherwise re-reduces; re-entering `reduce` on the
`Plus` of the two reduced children performs exactly that re-reduce-and-
recheck iteration.  The `Times` arm is the same with one child and
scalar multiplication instead of `try_add`.  Each loop iteration and each
recursive call consumes one unit of fuel. -/
def Expression.reduce [Add V] [Mul V] [DecidableEq C] (ex : Exchange V C) :
    Nat → Expression V C → RRes (Expression V C)
  | _, .Value m => .ok (.Value m)
  | 0, .Plus _ _ => .diverge
  | 0, .Times _ _ => .diverge
  | fuel + 1, .Plus l r =>
    match Expression.reduce ex fuel l with
    | .err e => .err e
    | .diverge => .diverge
    | .ok l2 =>
      match Expression.reduce ex fuel r with
      | .err e => .err e
      | .diverge => .diverge
      | .ok r2 =>
        match l2, r2 with
        | .Value a, .Value b =>
          match Money.tryAdd ex fuel a b with
          | .ok m => .ok (.Value m)
          | .err e => .err e
          | .diverge => .diverge
        | l3, r3 => Expression.reduce ex fuel (.Plus l3 r3)
  | fuel + 1, .Times e k =>
    match Expression.reduce ex fuel e with
    | .err er => .err er
    | .diverge => .diverge
    | .ok e2 =>
      match e2 with
      | .Value m => .ok (.Value (m.mulScalar k))
      | e3 => Expression.reduce ex fuel (.Times e3 k)

/-- `Expression::evaluate`: reduce, propagate the error, unwrap a `Value`
leaf; the result is `none` exactly when the `unreachable!()` branch would
run (reduction succeeded but did not produce a leaf). -/
def Expression.evaluate [Add V] [Mul V] [DecidableEq C] (ex : Exchange V C)
    (fuel : Nat) (e : Expression V C) : Option (RRes (Money V C)) :=
  match Expression.reduce ex fuel e with
  | .ok (.Value m) => some (.ok m)
  | .ok _ => none
  | .err er => some (.err er)
  | .diverge => some .diverge

/-- The `Into<Expression<V, C>> for Money<V, C>` impl: wrap in a `Value`
leaf. -/
def Money.intoExpression (m : Money V C) : Expression V C :=
  .Value m

/-- The `Add for Money<V, C>` impl: both operands lifted to leaves under a
`Plus` node. -/
def Money.addMoney (a b : Money V C) : Expression V C :=
  .Plus a.intoExpression b.intoExpression

/-- The `Add<Money<V, C>> for Expression<V, C>` impl: the right operand
lifted to a leaf. -/
def Expression.addMoney (e : Expression V C) (m : Money V C) : Expression V C :=
  .Plus e m.intoExpression

/-- The `Add for Expression<V, C>` impl. -/
def Expression.addExpression (a b : Expression V C) : Expression V C :=
  .Plus a b

/-- The `Mul<V> for Expression<V, C>` impl: wrap in a `Times` node. -/
def Expression.mulScalar (e : Expression V C) (k : V) : Expression V C :=
  .Times e k

/-- Operand kinds of the `+` operator: a bare `Money` or an `Expression`. -/
inductive OperandKind where
  | money : OperandKind
  | expr : OperandKind
deriving DecidableEq, Repr

/-- Which `(left, right)` operand combinations have an `Add` impl in the
source.  The file implements `Add for Money` (both `Money`),
`Add<Money> for Expression` and `Add for Expression`; it contains no
`Add<Expression> for Money` impl, so a bare `Money` on the left of an
`Expression` is not covered. -/
def addImplDefined : OperandKind → OperandKind → Bool
  | .money, .money => true
  | .expr, .money => true
  | .expr, .expr => true
  | .money, .expr => false

/-- A provider is well behaved when every successful conversion is
denominated in the requested target currency. -/
def WellBehaved (ex : Exchange V C) : Prop :=
  ∀ m c m2, ex m c = .ok m2 → m2.currency = c

/-- Fuel sufficient to fully reduce a tree under a well-behaved provider:
one unit per node, and two more at each `Plus` for the `try_add` retry. -/
def Expression.needFuel : Expression V C → Nat
  | .Value _ => 0
  | .Plus l r => max (max l.needFuel r.needFuel) 2 + 1
  | .Times e _ => e.needFuel + 1

/-- Nontermination of the Rust evaluator in the fuel embedding: every fuel
bound is exhausted. -/
def EvalDiverges [Add V] [Mul V] [DecidableEq C] (ex : Exchange V C)
    (e : Expression V C) : Prop :=
  ∀ fuel, Expression.evaluate ex fuel e = some .diverge

/-- The test module's provider: a rate table keyed by
`(source currency, target currency)`; on a hit the amount is multiplied by
the rate and the target currency attached, on a miss the result is
`Err(NoExchangeRate)`. -/
def ratesExchange (rates : List ((String × String) × Int)) :
    Exchange Int String := fun m c =>
  match rates.lookup (m.currency, c) with
  | some rate => .ok { value := m.value * rate, currency := c }
  | none => .error .NoExchangeRate

/-- The rate table of the source's test: `USD → RUB = 60`,
`RUB → USD = 0`. -/
def testRates : List ((String × String) × Int) :=
  [(("USD", "RUB"), 60), (("RUB", "USD"), 0)]

/-- A provider that ignores the requested target currency and always
answers in euros — legal for the `MonetaryExchange` trait, but it defeats
the `try_add` retry. -/
def stuckExchange : Exchange Int String := fun m _ =>
  .ok { value := m.value, currency := "EUR" }

section Lemmas

variable [Add V] [Mul V] [DecidableEq C]

/-- Reducing a `Value` leaf yields it unchanged, whatever the fuel. -/
lemma reduce_value (ex : Exchange V C) (fuel : Nat) (m : Money V C) :
    Expression.reduce ex fuel (.Value m) = .ok (.Value m) := by
  cases fuel <;> rfl

/-- A successful reduction always produces a `Value` leaf. -/
lemma reduce_ok_value (ex : Exchange V C) :
    ∀ fuel (e r : Expression V C), Expression.reduce ex fuel e = .ok r →
      ∃ m, r = .Value m := by
  intro fuel
  induction fuel using Nat.strong_induction_on with
  | _ fuel ih =>
    intro e r h
    cases e with
    | Value m =>
      rw [reduce_value] at h
      exact ⟨m, by injection h with h2; exact h2.symm⟩
    | Plus l rr =>
      cases fuel with
      | zero => simp [Expression.reduce] at h
      | succ f =>
        simp only [Expression.reduce] at h
        split at h
        · exact absurd h (by simp)
        · exact absurd h (by simp)
        · split at h
          · exact absurd h (by simp)
          · exact absurd h (by simp)
          · split at h
            · split at h
              · rename_i m _
                exact ⟨m, by injection h with h2; exact h2.symm⟩
              · exact absurd h (by simp)
              · exact absurd h (by simp)
            · exact ih f (Nat.lt_succ_self f) _ r h
    | Times e2 k =>
      cases fuel with
      | zero => simp [Expression.reduce] at h
      | succ f =>
        simp only [Expression.reduce] at h
        split at h
        · exact absurd h (by simp)
        · exact absurd h (by simp)
        · split at h
          · rename_i m heq
            exact ⟨m.mulScalar k, by injection h with h2; exact h2.symm⟩
          · exact ih f (Nat.lt_succ_self f) _ r h

/-- A successful `try_add` is denominated in the right operand's
currency. -/
lemma tryAdd_ok_currency (ex : Exchange V C) :
    ∀ fuel (a b m : Money V C), Money.tryAdd ex fuel a b = .ok m →
      m.currency = b.currency := by
  intro fuel
  induction fuel with
  | zero => intro a b m h; simp [Money.tryAdd] at h
  | succ f ih =>
    intro a b m h
    simp only [Money.tryAdd] at h
    split at h
    · rename_i hc
      injection h with h2
      rw [← h2]
      exact hc
    · split at h
      · exact absurd h (by simp)
      · rename_i a2 heq
        exact ih a2 b m h

/-- Under a well-behaved provider, `try_add` needs at most one conversion,
so two units of fuel never run out. -/
lemma tryAdd_wellBehaved_ne_diverge (ex : Exchange V C) (hw : WellBehaved ex) :
    ∀ fuel (a b : Money V C), 2 ≤ fuel →
      Money.tryAdd ex fuel a b ≠ .diverge := by
  intro fuel a b hf
  obtain ⟨f, rfl⟩ : ∃ f, fuel = f + 2 := ⟨fuel - 2, by omega⟩
  simp only [Money.tryAdd]
  split
  · simp
  · cases hx : ex a b.currency with
    | error e => simp
    | ok a2 =>
      have h2 : a2.currency = b.currency := hw a b.currency a2 hx
      simp [Money.tryAdd, h2]

/-- Every `Err` produced by `try_add` either comes out of the provider or
is impossible: with a provider that never reports `DifferentCurrencies`,
`try_add` never does either. -/
lemma tryAdd_no_differentCurrencies (ex : Exchange V C)
    (hx : ∀ m c, ex m c ≠ .error .DifferentCurrencies) :
    ∀ fuel (a b : Money V C),
      Money.tryAdd ex fuel a b ≠ .err .DifferentCurrencies := by
  intro fuel
  induction fuel with
  | zero => intro a b; simp [Money.tryAdd]
  | succ f ih =>
    intro a b
    simp only [Money.tryAdd]
    split
    · simp
    · cases hex : ex a b.currency with
      | error e =>
        simp only
        intro hcontra
        injection hcontra with h2
        rw [h2] at hex
        exact hx a b.currency hex
      | ok a2 =>
        simp only
        exact ih a2 b

/-- With a provider that never reports `DifferentCurrencies`, neither does
reduction: its only error source is the provider. -/
lemma reduce_no_differentCurrencies (ex : Exchange V C)
    (hx : ∀ m c, ex m c ≠ .error .DifferentCurrencies) :
    ∀ fuel (e : Expression V C),
      Expression.reduce ex fuel e ≠ .err .DifferentCurrencies := by
  intro fuel
  induction fuel using Nat.strong_induction_on with
  | _ fuel ih =>
    intro e
    cases e with
    | Value m => rw [reduce_value]; simp
    | Plus l r =>
      cases fuel with
      | zero => simp [Expression.reduce]
      | succ f =>
        simp only [Expression.reduce]
        split
        · rename_i e2 hl
          intro hcon
          injection hcon with h2
          rw [h2] at hl
          exact ih f (Nat.lt_succ_self f) l hl
        · simp
        · split
          · rename_i e2 hr
            intro hcon
            injection hcon with h2
            rw [h2] at hr
            exact ih f (Nat.lt_succ_self f) r hr
          · simp
          · split
            · split
              · simp
              · intro hcon
                injection hcon with h2
                subst h2
                exact tryAdd_no_differentCurrencies ex hx f _ _ (by assumption)
              · simp
            · exact ih f (Nat.lt_succ_self f) _
    | Times e2 k =>
      cases fuel with
      | zero => simp [Expression.reduce]
      | succ f =>
        simp only [Expression.reduce]
        split
        · rename_i er he
          intro hcon
          injection hcon with h2
          rw [h2] at he
          exact ih f (Nat.lt_succ_self f) e2 he
        · simp
        · split
          · simp
          · exact ih f (Nat.lt_succ_self f) _

/-- Under a well-behaved provider, `needFuel` units of fuel reduce any tree
to a leaf or a source-level error; the fuel bound is never hit. -/
lemma reduce_total (ex : Exchange V C) (hw : WellBehaved ex) :
    ∀ (e : Expression V C) fuel, e.needFuel ≤ fuel →
      (∃ m, Expression.reduce ex fuel e = .ok (.Value m)) ∨
      (∃ er, Expression.reduce ex fuel e = .err er) := by
  intro e
  induction e with
  | Value m => intro fuel _; exact Or.inl ⟨m, reduce_value ex fuel m⟩
  | Plus l r ihl ihr =>
    intro fuel hf
    simp only [Expression.needFuel] at hf
    obtain ⟨f, rfl⟩ : ∃ f, fuel = f + 1 := ⟨fuel - 1, by omega⟩
    have hfl : l.needFuel ≤ f := by omega
    have hfr : r.needFuel ≤ f := by omega
    have hf2 : 2 ≤ f := by omega
    rcases ihl f hfl with ⟨ml, hml⟩ | ⟨el, hel⟩
    · rcases ihr f hfr with ⟨mr, hmr⟩ | ⟨er2, her⟩
      · cases hta : Money.tryAdd ex f ml mr with
        | ok m => exact Or.inl ⟨m, by simp [Expression.reduce, hml, hmr, hta]⟩
        | err e3 => exact Or.inr ⟨e3, by simp [Expression.reduce, hml, hmr, hta]⟩
        | diverge => exact absurd hta (tryAdd_wellBehaved_ne_diverge ex hw f ml mr hf2)
      · exact Or.inr ⟨er2, by simp [Expression.reduce, hml, her]⟩
    · exact Or.inr ⟨el, by simp [Expression.reduce, hel]⟩
  | Times inner k ih =>
    intro fuel hf
    simp only [Expression.needFuel] at hf
    obtain ⟨f, rfl⟩ : ∃ f, fuel = f + 1 := ⟨fuel - 1, by omega⟩
    rcases ih f (by omega) with ⟨m, hm⟩ | ⟨er, her⟩
    · exact Or.inl ⟨m.mulScalar k, by simp [Expression.reduce, hm]⟩
    · exact Or.inr ⟨er, by simp [Expression.reduce, her]⟩

/-- Against `stuckExchange`, `try_add` toward rubles re-invokes the
provider forever: the converted operand is always in euros. -/
lemma stuck_tryAdd_diverge : ∀ fuel (m : Money Int String),
    m.currency ≠ "RUB" →
      Money.tryAdd stuckExchange fuel m ⟨40, "RUB"⟩ = .diverge := by
  intro fuel
  induction fuel with
  | zero => intro m _; rfl
  | succ f ih =>
    intro m hm
    simp only [Money.tryAdd]
    split
    · rename_i hc; exact absurd hc hm
    · exact ih ⟨m.value, "EUR"⟩ (show ("EUR" : String) ≠ "RUB" by decide)

/-- `evaluate` answers `Ok m` exactly when reduction produces the leaf
`Value m`. -/
lemma evaluate_ok_iff (ex : Exchange V C) (fuel : Nat) (e : Expression V C)
    (m : Money V C) :
    Expression.evaluate ex fuel e = some (.ok m) ↔
      Expression.reduce ex fuel e = .ok (.Value m) := by
  unfold Expression.evaluate
  cases hred : Expression.reduce ex fuel e with
  | ok r =>
    obtain ⟨m0, rfl⟩ := reduce_ok_value ex fuel e r hred
    simp
  | err er => simp
  | diverge => simp

/-- `evaluate` answers `Err er` exactly when reduction does. -/
lemma evaluate_err_iff (ex : Exchange V C) (fuel : Nat) (e : Expression V C)
    (er : Error) :
    Expression.evaluate ex fuel e = some (.err er) ↔
      Expression.reduce ex fuel e = .err er := by
  unfold Expression.evaluate
  cases hred : Expression.reduce ex fuel e with
  | ok r =>
    obtain ⟨m0, rfl⟩ := reduce_ok_value ex fuel e r hred
    simp
  | err er2 => simp
  | diverge => simp

/-- Reducing `Times` over an already-reduced leaf scales it. -/
lemma reduce_times_ok (ex : Exchange V C) (fuel : Nat) (e : Expression V C)
    (k : V) (m : Money V C) (h : Expression.reduce ex fuel e = .ok (.Value m)) :
    Expression.reduce ex (fuel + 1) (.Times e k) = .ok (.Value (m.mulScalar k)) := by
  simp [Expression.reduce, h]

/-- Reducing `Times` propagates the inner error. -/
lemma reduce_times_err (ex : Exchange V C) (fuel : Nat) (e : Expression V C)
    (k : V) (er : Error) (h : Expression.reduce ex fuel e = .err er) :
    Expression.reduce ex (fuel + 1) (.Times e k) = .err er := by
  simp [Expression.reduce, h]

/-- The test-style rate-table provider is well behaved: its successful
results carry the requested target currency. -/
lemma ratesExchange_wellBehaved (rates : List ((String × String) × Int)) :
    WellBehaved (ratesExchange rates) := by
  intro m c m2 h
  simp only [ratesExchange] at h
  split at h
  · injection h with h2
    rw [← h2]
  · exact absurd h (by simp)

/-- The test-style rate-table provider only ever fails with
`NoExchangeRate`. -/
lemma ratesExchange_no_differentCurrencies
    (rates : List ((String × String) × Int)) (m : Money Int String)
    (c : String) :
    ratesExchange rates m c ≠ .error .DifferentCurrencies := by
  simp only [ratesExchange]
  split <;> simp

end Lemmas

section Claims

variable [Add V] [Mul V] [DecidableEq C]

/-- C1: for every finite expression tree and every exchange provider (and
every fuel bound), if the private reduction step returns successfully, its
result is a `Value` leaf; hence the `unreachable!()` branch of `evaluate`
is never taken and `evaluate` returns the unwrapped `Money` of that
leaf. -/
theorem c1_reduce_result_is_leaf (ex : Exchange V C) (fuel : Nat)
    (e r : Expression V C) (h : Expression.reduce ex fuel e = .ok r) :
    ∃ m, r = .Value m ∧ Expression.evaluate ex fuel e = some (.ok m) := by
  obtain ⟨m, rfl⟩ := reduce_ok_value ex fuel e r h
  exact ⟨m, rfl, by simp [Expression.evaluate, h]⟩

/-- Witness for C1 at a concrete leaf tree and the test's rate table. -/
theorem c1_witness :
    ∃ m, (Expression.Value (⟨1, "USD"⟩ : Money Int String)) = .Value m ∧
      Expression.evaluate (ratesExchange testRates) 0
        (.Value ⟨1, "USD"⟩) = some (.ok m) :=
  c1_reduce_result_is_leaf (ratesExchange testRates) 0
    (.Value ⟨1, "USD"⟩) (.Value ⟨1, "USD"⟩) rfl

/-- C2, counterexample: the claim quantifies over *every* exchange
provider, but `stuckExchange` — which the `MonetaryExchange` signature
admits — always converts into euros, so the `try_add` retry re-invokes it
forever on `USD(1) + RUB(40)` and evaluation exhausts every fuel bound:
the reduction does not terminate. -/
theorem c2_counterexample :
    EvalDiverges stuckExchange (Money.addMoney ⟨1, "USD"⟩ ⟨40, "RUB"⟩) := by
  intro fuel
  cases fuel with
  | zero => rfl
  | succ f =>
    have h := stuck_tryAdd_diverge f ⟨1, "USD"⟩
      (show ("USD" : String) ≠ "RUB" by decide)
    simp [Expression.evaluate, Money.addMoney, Money.intoExpression,
      Expression.reduce, reduce_value, h]

/-- C2, amended: for every finite input expression tree and every
*well-behaved* exchange provider — one whose successful conversions are
denominated in the requested target currency — reduction (and hence
`evaluate`) terminates: with fuel at least `needFuel`, the fuel bound is
never exhausted and the result is `Ok` or an `Error`.  (The currency-aware
addition retry resolves after at most one provider call per `Plus` node
for such providers; an ill-behaved provider can make it loop forever, per
the counterexample.) -/
theorem c2_amended_termination (ex : Exchange V C) (hw : WellBehaved ex)
    (e : Expression V C) (fuel : Nat) (hf : e.needFuel ≤ fuel) :
    (∃ m, Expression.evaluate ex fuel e = some (.ok m)) ∨
    (∃ er, Expression.evaluate ex fuel e = some (.err er)) := by
  rcases reduce_total ex hw e fuel hf with ⟨m, hm⟩ | ⟨er, her⟩
  · exact Or.inl ⟨m, by simp [Expression.evaluate, hm]⟩
  · exact Or.inr ⟨er, by simp [Expression.evaluate, her]⟩

/-- Witness for the amended C2 at the test's rate table and
`USD(1) + RUB(40)`. -/
theorem c2_witness :
    (∃ m, Expression.evaluate (ratesExchange testRates) 3
      (Money.addMoney ⟨1, "USD"⟩ ⟨40, "RUB"⟩) = some (.ok m)) ∨
    (∃ er, Expression.evaluate (ratesExchange testRates) 3
      (Money.addMoney ⟨1, "USD"⟩ ⟨40, "RUB"⟩) = some (.err er)) :=
  c2_amended_termination (ratesExchange testRates)
    (ratesExchange_wellBehaved testRates)
    (Money.addMoney ⟨1, "USD"⟩ ⟨40, "RUB"⟩) 3 (by decide)

/-- C6, counterexample: the claim asserts the addition combinator is
defined for *every* combination of operands, but the source implements
`Add for Money`, `Add<Money> for Expression` and `Add for Expression`
only — there is no `Add<Expression> for Money` impl, so a bare `Money` on
the left of an `Expression` has no `+`. -/
theorem c6_counterexample :
    addImplDefined OperandKind.money OperandKind.expr = false := rfl

/-- C6, amended: three of the four operand combinations are defined —
`Money + Money`, `Expression + Money` and `Expression + Expression`
(`Money + Expression` is not implemented) — and each defined combinator
always succeeds, producing a `Plus` node of two `Expression`s with
`Money` operands lifted to `Value` leaves. -/
theorem c6_amended_combinators (a b : Money V C) (e1 e2 : Expression V C) :
    addImplDefined OperandKind.money OperandKind.money = true ∧
    addImplDefined OperandKind.expr OperandKind.money = true ∧
    addImplDefined OperandKind.expr OperandKind.expr = true ∧
    addImplDefined OperandKind.money OperandKind.expr = false ∧
    Money.addMoney a b = .Plus (.Value a) (.Value b) ∧
    Expression.addMoney e1 a = .Plus e1 (.Value a) ∧
    Expression.addExpression e1 e2 = .Plus e1 e2 :=
  ⟨rfl, rfl, rfl, rfl, rfl, rfl, rfl⟩

/-- C3: when a `Plus` node's two reduced leaves have different currencies,
`try_add` converts the left operand into the right operand's currency via
the provider and retries the addition with the converted operand; and
concretely, with the test's provider (USD→RUB rate 60),
`evaluate(USD(1) + RUB(40))` returns `Ok(RUB(100))` (for every fuel bound
at least 3, the recursion depth this tree needs). -/
theorem c3_conversion_correct :
    (∀ (ex : Exchange Int String) (f : Nat) (a b a2 : Money Int String),
        a.currency ≠ b.currency → ex a b.currency = .ok a2 →
        Money.tryAdd ex (f + 1) a b = Money.tryAdd ex f a2 b) ∧
    (∀ fuel, 3 ≤ fuel →
      Expression.evaluate (ratesExchange testRates) fuel
        (Money.addMoney ⟨1, "USD"⟩ ⟨40, "RUB"⟩) = some (.ok ⟨100, "RUB"⟩)) := by
  constructor
  · intro ex f a b a2 hne hok
    simp [Money.tryAdd, hne, hok]
  · intro fuel hf
    obtain ⟨f, rfl⟩ : ∃ f, fuel = (f + 2) + 1 := ⟨fuel - 3, by omega⟩
    rfl

/-- Witness for C3 at the minimal sufficient fuel bound. -/
theorem c3_witness :
    Expression.evaluate (ratesExchange testRates) 3
      (Money.addMoney ⟨1, "USD"⟩ ⟨40, "RUB"⟩) = some (.ok ⟨100, "RUB"⟩) :=
  c3_conversion_correct.2 3 (by decide)

/-- C4: with any provider that reports `NoExchangeRate` for the RUB→USD
pair, `evaluate(RUB(x) + USD(y))` fails with `NoExchangeRate` for every
pair of amounts, the error propagating to the caller with no partial
result. -/
theorem c4_missing_rate (ex : Exchange Int String)
    (hx : ∀ m : Money Int String, m.currency = "RUB" →
      ex m "USD" = .error .NoExchangeRate)
    (x y : Int) (fuel : Nat) (hf : 2 ≤ fuel) :
    Expression.evaluate ex fuel (Money.addMoney ⟨x, "RUB"⟩ ⟨y, "USD"⟩)
      = some (.err .NoExchangeRate) := by
  obtain ⟨f, rfl⟩ : ∃ f, fuel = (f + 1) + 1 := ⟨fuel - 2, by omega⟩
  have h1 : Money.tryAdd ex (f + 1) ⟨x, "RUB"⟩ ⟨y, "USD"⟩
      = .err .NoExchangeRate := by
    simp [Money.tryAdd, hx ⟨x, "RUB"⟩ rfl]
  simp [Expression.evaluate, Expression.reduce, Money.addMoney,
    Money.intoExpression, reduce_value, h1]

/-- Witness for C4: the empty rate table at concrete amounts. -/
theorem c4_witness :
    Expression.evaluate (ratesExchange []) 2
      (Money.addMoney ⟨5, "RUB"⟩ ⟨7, "USD"⟩) = some (.err .NoExchangeRate) :=
  c4_missing_rate (ratesExchange []) (fun _ _ => rfl) 5 7 2 (by decide)

/-- C5: whenever a `Plus` node reduces successfully, the currency of the
resulting `Money` equals the currency of the right subtree's own reduced
result (which is the right operand's original currency when the right side
is already a leaf) — the combination is not symmetric in the operands. -/
theorem c5_plus_result_currency (ex : Exchange V C) (fuel : Nat)
    (l r : Expression V C) (m : Money V C)
    (h : Expression.reduce ex fuel (.Plus l r) = .ok (.Value m)) :
    ∃ b, Expression.reduce ex (fuel - 1) r = .ok (.Value b) ∧
      m.currency = b.currency := by
  cases fuel with
  | zero => simp [Expression.reduce] at h
  | succ f =>
    simp only [Expression.reduce] at h
    split at h
    · exact absurd h (by simp)
    · exact absurd h (by simp)
    · rename_i l2 hl
      split at h
      · exact absurd h (by simp)
      · exact absurd h (by simp)
      · rename_i r2 hr
        obtain ⟨b, rfl⟩ := reduce_ok_value ex f r r2 hr
        obtain ⟨a, rfl⟩ := reduce_ok_value ex f l l2 hl
        dsimp only at h
        split at h
        · rename_i m2 hta
          injection h with h2
          injection h2 with h3
          subst h3
          exact ⟨b, by simpa using hr, tryAdd_ok_currency ex f a b m2 hta⟩
        · exact absurd h (by simp)
        · exact absurd h (by simp)

/-- Witness for C5 on a same-currency `Plus` of two leaves. -/
theorem c5_witness :
    ∃ b, Expression.reduce (ratesExchange testRates) (2 - 1)
      (.Value (⟨2, "USD"⟩ : Money Int String)) = .ok (.Value b) ∧
      (⟨3, "USD"⟩ : Money Int String).currency = b.currency :=
  c5_plus_result_currency (ratesExchange testRates) 2 (.Value ⟨1, "USD"⟩)
    (.Value ⟨2, "USD"⟩) ⟨3, "USD"⟩ rfl

/-- C7: evaluating `Times(e, k)` succeeds exactly when evaluating `e`
succeeds, the success value being `e`'s result scaled by `k` with its
currency unchanged; errors pass through unchanged in both directions; and
the `Times` step itself never consults the provider: any provider agreeing
with `ex` on the inner reduction agrees on the `Times` node. -/
theorem c7_times_frame (ex : Exchange V C) (fuel : Nat)
    (e : Expression V C) (k : V) :
    (∀ m, Expression.evaluate ex fuel e = some (.ok m) →
      Expression.evaluate ex (fuel + 1) (.Times e k)
        = some (.ok (m.mulScalar k))) ∧
    (∀ er, Expression.evaluate ex fuel e = some (.err er) →
      Expression.evaluate ex (fuel + 1) (.Times e k) = some (.err er)) ∧
    (∀ m2, Expression.evaluate ex (fuel + 1) (.Times e k) = some (.ok m2) →
      ∃ m, Expression.evaluate ex fuel e = some (.ok m) ∧
        m2 = m.mulScalar k) ∧
    (∀ er, Expression.evaluate ex (fuel + 1) (.Times e k) = some (.err er) →
      Expression.evaluate ex fuel e = some (.err er)) ∧
    (∀ ex2 : Exchange V C,
      Expression.reduce ex2 fuel e = Expression.reduce ex fuel e →
      Expression.reduce ex2 (fuel + 1) (.Times e k)
        = Expression.reduce ex (fuel + 1) (.Times e k)) := by
  refine ⟨?_, ?_, ?_, ?_, ?_⟩
  · intro m hm
    rw [evaluate_ok_iff] at hm
    rw [evaluate_ok_iff]
    exact reduce_times_ok ex fuel e k m hm
  · intro er her
    rw [evaluate_err_iff] at her
    rw [evaluate_err_iff]
    exact reduce_times_err ex fuel e k er her
  · intro m2 hm2
    rw [evaluate_ok_iff] at hm2
    simp only [Expression.reduce] at hm2
    split at hm2
    · exact absurd hm2 (by simp)
    · exact absurd hm2 (by simp)
    · rename_i e2 he
      obtain ⟨m, rfl⟩ := reduce_ok_value ex fuel e e2 he
      dsimp only at hm2
      injection hm2 with h2
      injection h2 with h3
      exact ⟨m, (evaluate_ok_iff ex fuel e m).mpr he, h3.symm⟩
  · intro er her
    rw [evaluate_err_iff] at her
    rw [evaluate_err_iff]
    simp only [Expression.reduce] at her
    split at her
    · rename_i er2 heq
      injection her with h2
      subst h2
      exact heq
    · exact absurd her (by simp)
    · rename_i e2 he
      obtain ⟨m, rfl⟩ := reduce_ok_value ex fuel e e2 he
      dsimp only at her
      exact absurd her (by simp)
  · intro ex2 hsame
    cases hred : Expression.reduce ex fuel e with
    | ok e2 =>
      obtain ⟨m, rfl⟩ := reduce_ok_value ex fuel e e2 hred
      rw [reduce_times_ok ex fuel e k m hred,
        reduce_times_ok ex2 fuel e k m (by rw [hsame, hred])]
    | err er =>
      rw [reduce_times_err ex fuel e k er hred,
        reduce_times_err ex2 fuel e k er (by rw [hsame, hred])]
    | diverge => simp [Expression.reduce, hsame, hred]

/-- Witness for C7's success direction on a concrete leaf. -/
theorem c7_witness :
    Expression.evaluate (ratesExchange testRates) (0 + 1)
      (.Times (.Value ⟨2, "USD"⟩) 5)
      = some (.ok (Money.mulScalar ⟨2, "USD"⟩ 5)) :=
  (c7_times_frame (ratesExchange testRates) 0 (.Value ⟨2, "USD"⟩) 5).1
    ⟨2, "USD"⟩ rfl

/-- C8: with any provider whose exchange operation never returns
`DifferentCurrencies`, `evaluate` never returns `DifferentCurrencies` —
the reduction path introduces no such error of its own. -/
theorem c8_no_differentCurrencies (ex : Exchange V C)
    (hx : ∀ m c, ex m c ≠ .error .DifferentCurrencies) (fuel : Nat)
    (e : Expression V C) :
    Expression.evaluate ex fuel e ≠ some (.err .DifferentCurrencies) := by
  intro hcon
  rw [evaluate_err_iff] at hcon
  exact reduce_no_differentCurrencies ex hx fuel e hcon

/-- Witness for C8 with the test's rate table on a mixed-currency sum. -/
theorem c8_witness :
    Expression.evaluate (ratesExchange testRates) 3
      (Money.addMoney ⟨1, "USD"⟩ ⟨40, "RUB"⟩)
      ≠ some (.err .DifferentCurrencies) :=
  c8_no_differentCurrencies (ratesExchange testRates)
    (ratesExchange_no_differentCurrencies testRates) 3
    (Money.addMoney ⟨1, "USD"⟩ ⟨40, "RUB"⟩)

/-- C9: for amounts a, b, c in one currency x, `evaluate(a+b+c)` equals
`evaluate(b+a+c)` and both equal the arithmetic sum in currency x, for
every exchange provider (any fuel bound of at least 3 suffices) — the
provider's contents do not affect the result. -/
theorem c9_same_currency_sum (ex : Exchange Int String) (a b c : Int)
    (x : String) (fuel : Nat) (hf : 3 ≤ fuel) :
    Expression.evaluate ex fuel
      (Expression.addMoney (Money.addMoney ⟨a, x⟩ ⟨b, x⟩) ⟨c, x⟩)
      = some (.ok ⟨a + b + c, x⟩) ∧
    Expression.evaluate ex fuel
      (Expression.addMoney (Money.addMoney ⟨b, x⟩ ⟨a, x⟩) ⟨c, x⟩)
      = some (.ok ⟨a + b + c, x⟩) := by
  obtain ⟨f, rfl⟩ : ∃ f, fuel = ((f + 1) + 1) + 1 := ⟨fuel - 3, by omega⟩
  constructor
  · simp [Expression.evaluate, Expression.reduce, Money.tryAdd,
      Money.addMoney, Expression.addMoney, Money.intoExpression, reduce_value]
  · simp [Expression.evaluate, Expression.reduce, Money.tryAdd,
      Money.addMoney, Expression.addMoney, Money.intoExpression, reduce_value]
    omega

/-- Witness for C9 at concrete amounts and provider. -/
theorem c9_witness :
    Expression.evaluate (ratesExchange testRates) 3
      (Expression.addMoney (Money.addMoney ⟨1, "USD"⟩ ⟨2, "USD"⟩) ⟨3, "USD"⟩)
      = some (.ok ⟨1 + 2 + 3, "USD"⟩) ∧
    Expression.evaluate (ratesExchange testRates) 3
      (Expression.addMoney (Money.addMoney ⟨2, "USD"⟩ ⟨1, "USD"⟩) ⟨3, "USD"⟩)
      = some (.ok ⟨1 + 2 + 3, "USD"⟩) :=
  c9_same_currency_sum (ratesExchange testRates) 1 2 3 "USD" 3 (by decide)

/-- C10: evaluating a bare `Value` leaf returns its `Money` unchanged,
for every provider and every fuel bound — no error, no provider
dependence. -/
theorem c10_value_evaluates_to_itself (ex : Exchange V C) (fuel : Nat)
    (m : Money V C) :
    Expression.evaluate ex fuel (.Value m) = some (.ok m) := by
  simp [Expression.evaluate, reduce_value]

end Claims

end MoneyRs
